import Mathlib

/-!
Verification of the Degeneracy-Based Approximation Engine for
large-set-arboricity.

This file gives a shallow embedding of the core algorithms of the
repository:

* `modified_degeneracy` embeds `LargeSetArboricity.modified_degeneracy_algorithm`
  (networkx version, `large_set_arboricity_updated.py`): repeated linear
  scan for a minimum-degree vertex, removal, and `dk` taken as the
  maximum degree-at-removal among the last `k` removed vertices.
* `elimRecord` embeds the shared heap loop of
  `LargeSetArboricityIgraph.compute_dk` and
  `compute_all_dk_optimized` (`large_set_arboricity.py`): a lazily
  deleted priority structure holding `(degree, vertex)` pairs, popped in
  ascending lexicographic order exactly as Python's `heapq` does.
  `compute_dk` and `compute_all_dk` are defined on top of it, mirroring
  the respective stopping conditions (`vertices_remaining > k`
  resp. `step < n - 1` plus `_compute_dk_from_states`).
* `alpha_k_exact` embeds `compute_alpha_k_exact`: brute-force
  enumeration of all vertex subsets of size `> k` (`itertools.combinations`
  order), returning `none` for the `(None, None)` infeasible signal and
  `some v` for a numeric result `(v, best_subgraph)`.
* `verify_approximation` embeds the bound-verifier logic, with
  `none : Option ℚ` standing for the float `inf` ratio.

Machine floats in the source (`2.0 * edges / vertices`, `math.ceil`,
`np.ceil`) are modelled exactly over `ℚ`: all quantities involved are
ratios of small integers for which IEEE division followed by ceiling
agrees with the exact rational ceiling.  Vertices are `0, ..., n-1`;
`networkx`/`igraph` node iteration order is ascending identifiers, as
produced by the repository's graph constructors.
-/

namespace LSA

/-- A finite simple graph as the repository consumes it: a vertex count
`n` (vertices are `0..n-1`) and an undirected edge list, mirroring
`LargeSetArboricityIgraph.from_edgelist`. -/
structure Graph where
  n : Nat
  edges : List (Nat × Nat)
deriving DecidableEq

/-- Adjacency test: an unordered edge is stored in one direction in the
edge list. -/
def Graph.adjb (G : Graph) (u v : Nat) : Bool :=
  G.edges.contains (u, v) || G.edges.contains (v, u)

/-- Two directed pairs denote the same undirected edge. -/
def sameEdge (e f : Nat × Nat) : Prop :=
  e = f ∨ (e.1 = f.2 ∧ e.2 = f.1)

instance (e f : Nat × Nat) : Decidable (sameEdge e f) := by
  unfold sameEdge; infer_instance

/-- Well-formed input, as guaranteed by the ingestion collaborators:
endpoints in range, no self-loops, no duplicated (unordered) edge. -/
def Graph.Wf (G : Graph) : Prop :=
  (∀ e ∈ G.edges, e.1 < G.n ∧ e.2 < G.n ∧ e.1 ≠ e.2) ∧
    G.edges.Pairwise (fun e f => ¬ sameEdge e f)

instance (G : Graph) : Decidable G.Wf := by
  unfold Graph.Wf; infer_instance

/-- Degree of `v` in the subgraph induced on the vertices not marked in
`rem`: the count of still-present neighbours of `v` in the original
graph. -/
def Graph.inducedDeg (G : Graph) (rem : Nat → Bool) (v : Nat) : Nat :=
  (List.range G.n).countP (fun u => !rem u && G.adjb v u)

/-- Number of edges whose two endpoints are both still present. -/
def Graph.edgesAmong (G : Graph) (rem : Nat → Bool) : Nat :=
  (G.edges.filter (fun e => !rem e.1 && !rem e.2)).length

/-- Number of vertices still present. -/
def countUnremoved (G : Graph) (rem : Nat → Bool) : Nat :=
  (List.range G.n).countP (fun u => !rem u)

/-- Mark one more vertex as removed (`removed[v] = True`). -/
def addRemoved (rem : Nat → Bool) (v : Nat) : Nat → Bool :=
  fun u => u == v || rem u

/-- Lexicographic order on `(degree, vertex)` pairs: the order in which
Python's `heapq` delivers tuple entries. -/
def pairLe (a b : Nat × Nat) : Prop :=
  a.1 < b.1 ∨ (a.1 = b.1 ∧ a.2 ≤ b.2)

instance : DecidableRel pairLe := fun a b => by
  unfold pairLe; infer_instance

instance : IsTotal (Nat × Nat) pairLe :=
  ⟨fun a b => by unfold pairLe; omega⟩

instance : IsTrans (Nat × Nat) pairLe :=
  ⟨fun a b c => by unfold pairLe; omega⟩

/-- One line of the RemovalRecord produced by the heap elimination: the
popped vertex, the degree the popped entry carried, and the vertex/edge
counters of the working state just before this removal. -/
structure RemovalEntry where
  vtx : Nat
  degAtRemoval : Nat
  verticesBefore : Nat
  edgesBefore : Nat
deriving DecidableEq

/-- Default entry used with `List.getD`. -/
def dfltEntry : RemovalEntry := ⟨0, 0, 0, 0⟩

/-- The WorkingState of one heap-based elimination run (`compute_dk` /
`compute_all_dk_optimized`): the lazily deleted priority structure (kept
sorted; popping the head is popping the `heapq` minimum), the removal
marks, the authoritative degree table, and the two counters. -/
structure ElimState where
  heap : List (Nat × Nat)
  removed : Nat → Bool
  degs : Nat → Nat
  verticesRem : Nat
  edgesRem : Nat

/-- Effect of actually removing popped vertex `v` (popped degree `d`),
with `rest` the heap after the pop: mark `v` removed, decrement the two
counters (`edges_remaining -= deg`), decrement the degree of every
still-present neighbour `u` of `v` and push a fresh `(degree[u], u)`
entry for each. -/
def rmStep (G : Graph) (s : ElimState) (d v : Nat) (rest : List (Nat × Nat)) : ElimState :=
  let removed' := addRemoved s.removed v
  let ns := (List.range G.n).filter (fun u => G.adjb v u && !removed' u)
  { heap := ns.foldl (fun h u => h.orderedInsert pairLe (s.degs u - 1, u)) rest
    removed := removed'
    degs := fun w => if w ∈ ns then s.degs w - 1 else s.degs w
    verticesRem := s.verticesRem - 1
    edgesRem := s.edgesRem - d }

/-- The heap loop shared verbatim by `compute_dk` and
`compute_all_dk_optimized`: pop the minimum entry; skip it if its vertex
is already removed (lazy deletion); otherwise record the state and
remove the vertex.  `fuel` only bounds the number of pops; it is chosen
large enough that the loop always drains the heap. -/
def elimLoop (G : Graph) : Nat → ElimState → List RemovalEntry
  | 0, _ => []
  | fuel + 1, s =>
    match s.heap with
    | [] => []
    | (d, v) :: rest =>
      if s.removed v then
        elimLoop G fuel { s with heap := rest }
      else
        ⟨v, d, s.verticesRem, s.edgesRem⟩ :: elimLoop G fuel (rmStep G s d v rest)

/-- Initial WorkingState: degrees from the full graph, one heap entry
per vertex (heapified), all vertices present, `edges_remaining = m`. -/
def initState (G : Graph) : ElimState :=
  { heap := ((List.range G.n).map (fun v => (G.inducedDeg (fun _ => false) v, v))).insertionSort pairLe
    removed := fun _ => false
    degs := fun v => G.inducedDeg (fun _ => false) v
    verticesRem := G.n
    edgesRem := G.edges.length }

/-- The full RemovalRecord of one heap-based elimination run.  The fuel
`n + 2m + 1` exceeds the total number of heap entries ever created (one
per vertex plus one per degree decrement), so the loop runs until the
heap is empty. -/
def elimRecord (G : Graph) : List RemovalEntry :=
  elimLoop G (G.n + 2 * G.edges.length + 1) (initState G)

/-- Removal marks accumulated by a record prefix on top of `rem`. -/
def removedAfterFrom (rem : Nat → Bool) (recs : List RemovalEntry) : Nat → Bool :=
  recs.foldl (fun a r => addRemoved a r.vtx) rem

/-- Removal marks after the given record entries have been performed,
starting from the fresh state. -/
def removedAfter (recs : List RemovalEntry) : Nat → Bool :=
  removedAfterFrom (fun _ => false) recs

/-- Semantic correctness of a removal record with respect to the graph:
every entry removes a still-present vertex, carries that vertex's true
induced degree, and carries the true vertex/edge counts of the induced
subgraph before the removal; at the end no vertex is left. -/
def ValidTrace (G : Graph) : (Nat → Bool) → List RemovalEntry → Prop
  | rem, [] => ∀ u, u < G.n → rem u = true
  | rem, r :: rs =>
    rem r.vtx = false ∧ r.vtx < G.n ∧
    r.degAtRemoval = G.inducedDeg rem r.vtx ∧
    r.verticesBefore = countUnremoved G rem ∧
    r.edgesBefore = G.edgesAmong rem ∧
    ValidTrace G (addRemoved rem r.vtx) rs

/-- Book-keeping chain of the two counters along a record: purely how
the loop updates its `vertices_remaining` / `edges_remaining` fields. -/
def StatesChain : Nat → Nat → List RemovalEntry → Prop
  | _, _, [] => True
  | v, e, r :: rs =>
    r.verticesBefore = v ∧ r.edgesBefore = e ∧
    StatesChain (v - 1) (e - r.degAtRemoval) rs

/-- Termination measure of the heap loop: every pop removes one entry,
and an actual removal adds one entry per surviving incident edge while
destroying those edges. -/
def elimMeasure (G : Graph) (s : ElimState) : Nat :=
  s.heap.length + 2 * G.edgesAmong s.removed

/-- Running maximum of the average degrees `2·e / v` of a list of
`(vertices, edges)` states, starting from `0.0` as in the source. -/
def maxAvgOver (states : List (Nat × Nat)) : ℚ :=
  states.foldl (fun acc p => max acc ((2 * (p.2 : ℚ)) / (p.1 : ℚ))) 0

/-- Embedding of `LargeSetArboricityIgraph.compute_dk`: return `0` when
`k ≥ n`, clamp negative `k` to `0`, then run the heap elimination while
more than `k` vertices remain, tracking the maximum average degree of
the state before each removal, and finally take the ceiling.  Since the
state's vertex count decreases by exactly one per removal, the states
the Python loop visits are exactly the record entries whose
`verticesBefore` exceeds `k`. -/
def compute_dk (G : Graph) (k : ℤ) : Nat :=
  if (G.n : ℤ) ≤ k then 0
  else
    let kk := k.toNat
    (Int.ceil (maxAvgOver (((elimRecord G).filter
      (fun e => decide (kk < e.verticesBefore))).map
        (fun e => (e.verticesBefore, e.edgesBefore))))).toNat

/-- The states recorded by `compute_all_dk_optimized`: the initial
`(n, m)` at step 0, then the state after each of the first `n - 1`
removals (`while heap and step < n - 1`). -/
def statesAllDk (G : Graph) : List (Nat × Nat) :=
  (G.n, G.edges.length) ::
    ((elimRecord G).take (G.n - 1)).map
      (fun e => (e.verticesBefore - 1, e.edgesBefore - e.degAtRemoval))

/-- Embedding of `_compute_dk_from_states` at one index `k`: maximum
average degree over the recorded states with more than `k` (and more
than `0`) vertices, then the ceiling. -/
def computeDkFromStates (states : List (Nat × Nat)) (k : Nat) : Nat :=
  (Int.ceil (states.foldl
    (fun acc p => if k < p.1 ∧ 0 < p.1 then max acc ((2 * (p.2 : ℚ)) / (p.1 : ℚ)) else acc)
    0)).toNat

/-- Entry `k` of the array returned by `compute_all_dk_optimized`. -/
def compute_all_dk (G : Graph) (k : Nat) : Nat :=
  computeDkFromStates (statesAllDk G) k

/-- The candidate `(vertex, current degree)` pairs scanned by the
networkx algorithm's `for v in H.nodes()` loop: the still-present
vertices in ascending identifier order, each with its degree in the
current induced subgraph `H`. -/
def candidateList (G : Graph) (rem : Nat → Bool) : List (Nat × Nat) :=
  ((List.range G.n).filter (fun v => !rem v)).map (fun v => (v, G.inducedDeg rem v))

/-- The `min_deg / min_vertex` scan: keep the first pair whose degree is
strictly smaller than everything seen so far. -/
def scanMin (l : List (Nat × Nat)) : Option (Nat × Nat) :=
  l.foldl (fun acc p =>
    match acc with
    | none => some p
    | some q => if p.2 < q.2 then some p else some q) none

/-- The elimination loop of `modified_degeneracy_algorithm` (`for step
in range(n)`): repeatedly scan for the minimum-degree vertex, record
`(vertex, degree_at_removal)`, and remove it. -/
def scanElimAux (G : Graph) : Nat → (Nat → Bool) → List (Nat × Nat)
  | 0, _ => []
  | fuel + 1, rem =>
    match scanMin (candidateList G rem) with
    | none => []
    | some (v, d) => (v, d) :: scanElimAux G fuel (addRemoved rem v)

/-- The full removal record `(vertex, degree_at_removal)` of the
networkx `modified_degeneracy_algorithm`. -/
def scanElim (G : Graph) : List (Nat × Nat) :=
  scanElimAux G G.n (fun _ => false)

/-- Embedding of `modified_degeneracy_algorithm`: clamp `k` to `n`,
return `(0, [])` for `k ≤ 0`, otherwise run the full elimination and
return the maximum `degree_at_removal` over the last `k` removed
vertices (`removal_order[-k:]`) together with the removal order. -/
def modified_degeneracy (G : Graph) (k : ℤ) : Nat × List Nat :=
  let k1 : ℤ := if (G.n : ℤ) < k then (G.n : ℤ) else k
  if k1 ≤ 0 then (0, [])
  else
    let order := scanElim G
    let lastk := if k1.toNat ≤ order.length then order.drop (order.length - k1.toNat) else order
    ((lastk.map Prod.snd).foldl max 0, order.map Prod.fst)

/-- `itertools.combinations`: all sorted `r`-element sublists of `l`, in
the order Python generates them. -/
def combinations : Nat → List Nat → List (List Nat)
  | 0, _ => [[]]
  | _ + 1, [] => []
  | r + 1, x :: xs => ((combinations r xs).map (fun c => x :: c)) ++ combinations (r + 1) xs

/-- Edge count of the subgraph induced on the subset `s`
(`subgraph.number_of_edges()`). -/
def subsetEdges (G : Graph) (s : List Nat) : Nat :=
  (G.edges.filter (fun e => s.contains e.1 && s.contains e.2)).length

/-- Ceiling of `2·e / v` for `v > 0`, as `math.ceil` computes it on the
exact ratio. -/
def ceilAvg (e v : Nat) : Nat := (2 * e + v - 1) / v

/-- Embedding of `compute_alpha_k_exact`.  `none` models the
`(None, None)` "graph too large" signal; `some v` models a numeric
result `(v, best_subgraph)` (the witness subgraph itself is not needed
by any claim).  Note the guard order of the source: `n <= k` is tested
before `n > 15`. -/
def alpha_k_exact (G : Graph) (k : ℤ) : Option Nat :=
  if (G.n : ℤ) ≤ k then some 0
  else if 15 < G.n then none
  else some ((((List.range (G.n + 1)).filter (fun s : Nat => decide (k < (s : ℤ)))).foldl
    (fun acc (s : Nat) => (combinations s (List.range G.n)).foldl
      (fun acc2 (sub : List Nat) =>
        if 0 < sub.length ∧ 0 < subsetEdges G sub then
          max acc2 (ceilAvg (subsetEdges G sub) sub.length)
        else acc2) acc)
    0))

/-- Result record of `verify_approximation`.  `ratioOut = none` models
the float `inf` produced when `dk_value = 0`. -/
structure VerifyResult where
  lowerOk : Bool
  upperOk : Bool
  ratioOut : Option ℚ
deriving DecidableEq

/-- Embedding of the bound-verifier logic of `verify_approximation`
(lines computing `lower_ok`, `upper_ok`, `ratio` from the two already
computed values). -/
def verify_approximation (dkValue alphaKValue : Nat) : VerifyResult :=
  { lowerOk := decide (dkValue ≤ alphaKValue)
    upperOk := decide (alphaKValue ≤ 2 * dkValue)
    ratioOut := if 0 < dkValue then some ((alphaKValue : ℚ) / (dkValue : ℚ)) else none }

/-- Loop invariant of the heap elimination: the heap is sorted (so the
head is the `heapq` minimum); every entry names an in-range vertex and
is never below the authoritative degree of a still-present vertex; every
still-present vertex has its fresh `(degree[v], v)` entry in the heap;
the degree table and the two counters agree with the induced subgraph on
the still-present vertices; and nothing outside `0..n-1` is ever marked
removed. -/
structure Inv (G : Graph) (s : ElimState) : Prop where
  sorted : s.heap.Sorted pairLe
  entries : ∀ p ∈ s.heap, p.2 < G.n ∧ (s.removed p.2 = false → s.degs p.2 ≤ p.1)
  covers : ∀ u, u < G.n → s.removed u = false → (s.degs u, u) ∈ s.heap
  degsOk : ∀ u, s.removed u = false → s.degs u = G.inducedDeg s.removed u
  edgesOk : s.edgesRem = G.edgesAmong s.removed
  vertsOk : s.verticesRem = countUnremoved G s.removed
  inRange : ∀ u, G.n ≤ u → s.removed u = false

/-- The 4-cycle `0-1-2-3` with the diagonal `0-2`: the concrete scenario
graph of the spec (5 edges, degree sequence 3,2,3,2). -/
def diamondG : Graph := ⟨4, [(0, 1), (1, 2), (2, 3), (3, 0), (0, 2)]⟩

/-- The star with hub `0` and three leaves. -/
def starG : Graph := ⟨4, [(0, 1), (0, 2), (0, 3)]⟩

/-- A single edge on two vertices. -/
def edgeOneG : Graph := ⟨2, [(0, 1)]⟩

/-- An edgeless graph above the exact-oracle feasibility ceiling. -/
def bigG16 : Graph := ⟨16, []⟩

/-- A second graph above the feasibility ceiling. -/
def bigG17 : Graph := ⟨17, [(0, 1)]⟩

/-- Edge list of the complete graph: every pair `(i, j)` with
`i < j < n`. -/
def completeEdges (n : Nat) : List (Nat × Nat) :=
  (List.range n).flatMap (fun j => (List.range j).map (fun i => (i, j)))

/-- The complete graph on `n` vertices. -/
def completeGraph (n : Nat) : Graph := ⟨n, completeEdges n⟩

/-! ### Counting helpers -/

theorem bool_eq_of_iff {a b : Bool} (h : a = true ↔ b = true) : a = b := by
  cases a <;> cases b <;> simp_all

theorem countP_agree {l : List Nat} {p q : Nat → Bool} (h : ∀ u ∈ l, q u = p u) :
    l.countP q = l.countP p :=
  List.countP_congr (fun x hx => by rw [h x hx])

theorem countP_update_true {l : List Nat} (hl : l.Nodup) {v : Nat} (hv : v ∈ l)
    {p q : Nat → Bool} (hagree : ∀ u ∈ l, u ≠ v → q u = p u)
    (hqv : q v = true) (hpv : p v = false) :
    l.countP q = l.countP p + 1 := by
  induction l with
  | nil => cases hv
  | cons a tl ih =>
    rcases List.mem_cons.mp hv with rfl | hvtl
    · have htl : tl.countP q = tl.countP p :=
        countP_agree (fun u hu => hagree u (List.mem_cons_of_mem _ hu)
          (fun h => (List.nodup_cons.mp hl).1 (h ▸ hu)))
      simp [List.countP_cons, hqv, hpv, htl]
    · have ha : a ≠ v := fun h => (List.nodup_cons.mp hl).1 (h ▸ hvtl)
      have := ih (List.nodup_cons.mp hl).2 hvtl
        (fun u hu hne => hagree u (List.mem_cons_of_mem _ hu) hne)
      simp only [List.countP_cons, hagree a (List.mem_cons_self a tl) ha, this]
      omega

theorem sum_map_agree {l : List Nat} {f g : Nat → Nat} (h : ∀ u ∈ l, g u = f u) :
    (l.map g).sum = (l.map f).sum := by
  induction l with
  | nil => rfl
  | cons a tl ih =>
    simp only [List.map_cons, List.sum_cons, h a (List.mem_cons_self a tl),
      ih (fun u hu => h u (List.mem_cons_of_mem _ hu))]

theorem sum_map_succ_at {l : List Nat} (hl : l.Nodup) {v : Nat} (hv : v ∈ l)
    {f g : Nat → Nat} (hagree : ∀ u ∈ l, u ≠ v → g u = f u) (hgv : g v = f v + 1) :
    (l.map g).sum = (l.map f).sum + 1 := by
  induction l with
  | nil => cases hv
  | cons a tl ih =>
    rcases List.mem_cons.mp hv with rfl | hvtl
    · have htl : (tl.map g).sum = (tl.map f).sum :=
        sum_map_agree (fun u hu => hagree u (List.mem_cons_of_mem _ hu)
          (fun h => (List.nodup_cons.mp hl).1 (h ▸ hu)))
      simp only [List.map_cons, List.sum_cons, hgv, htl]
      omega
    · have ha : a ≠ v := fun h => (List.nodup_cons.mp hl).1 (h ▸ hvtl)
      have := ih (List.nodup_cons.mp hl).2 hvtl
        (fun u hu hne => hagree u (List.mem_cons_of_mem _ hu) hne)
      simp only [List.map_cons, List.sum_cons, hagree a (List.mem_cons_self a tl) ha, this]
      omega

/-! ### Adjacency facts -/

theorem adjb_iff {G : Graph} {u v : Nat} :
    G.adjb u v = true ↔ (u, v) ∈ G.edges ∨ (v, u) ∈ G.edges := by
  simp [Graph.adjb]

theorem adjb_comm (G : Graph) (u v : Nat) : G.adjb u v = G.adjb v u := by
  simp [Graph.adjb, Bool.or_comm]

theorem adjb_lt {G : Graph} (hwf : G.Wf) {u v : Nat} (h : G.adjb u v = true) :
    u < G.n ∧ v < G.n := by
  rcases adjb_iff.mp h with hm | hm
  · exact ⟨(hwf.1 _ hm).1, (hwf.1 _ hm).2.1⟩
  · exact ⟨(hwf.1 _ hm).2.1, (hwf.1 _ hm).1⟩

theorem adjb_ne {G : Graph} (hwf : G.Wf) {u v : Nat} (h : G.adjb u v = true) : u ≠ v := by
  rcases adjb_iff.mp h with hm | hm
  · exact (hwf.1 _ hm).2.2
  · exact fun he => (hwf.1 _ hm).2.2 he.symm

theorem adjb_self {G : Graph} (hwf : G.Wf) (v : Nat) : G.adjb v v = false := by
  cases h : G.adjb v v with
  | false => rfl
  | true => exact absurd rfl (adjb_ne hwf h)

/-! ### Removal-set update lemmas -/

theorem addRemoved_self (rem : Nat → Bool) (v : Nat) : addRemoved rem v v = true := by
  simp [addRemoved]

theorem addRemoved_ne (rem : Nat → Bool) {u v : Nat} (h : u ≠ v) :
    addRemoved rem v u = rem u := by
  simp [addRemoved, h]

theorem countUnremoved_le (G : Graph) (rem : Nat → Bool) :
    countUnremoved G rem ≤ G.n := by
  unfold countUnremoved
  calc (List.range G.n).countP (fun u => !rem u) ≤ (List.range G.n).length :=
      List.countP_le_length _
    _ = G.n := List.length_range G.n

theorem countUnremoved_pos (G : Graph) {rem : Nat → Bool} {v : Nat}
    (hv : v < G.n) (hrv : rem v = false) : 0 < countUnremoved G rem := by
  unfold countUnremoved
  have : (fun u => !rem u) v = true := by simp [hrv]
  calc 0 < [v].countP (fun u => !rem u) := by simp [hrv]
    _ ≤ (List.range G.n).countP (fun u => !rem u) :=
      List.Sublist.countP_le _ (by simpa using List.singleton_sublist.mpr (List.mem_range.mpr hv))

theorem countUnremoved_addRemoved (G : Graph) {rem : Nat → Bool} {v : Nat}
    (hv : v < G.n) (hrv : rem v = false) :
    countUnremoved G (addRemoved rem v) + 1 = countUnremoved G rem := by
  unfold countUnremoved
  refine (countP_update_true (List.nodup_range G.n) (List.mem_range.mpr hv) ?_ ?_ ?_).symm
  · intro u _ hu
    rw [addRemoved_ne _ hu]
  · simp [hrv]
  · simp [addRemoved_self]

theorem inducedDeg_congr (G : Graph) {r1 r2 : Nat → Bool} (h : ∀ u, r1 u = r2 u) (v : Nat) :
    G.inducedDeg r1 v = G.inducedDeg r2 v :=
  countP_agree (fun u _ => by rw [h u])

theorem edgesAmong_congr (G : Graph) {r1 r2 : Nat → Bool} (h : ∀ u, r1 u = r2 u) :
    G.edgesAmong r1 = G.edgesAmong r2 := by
  unfold Graph.edgesAmong
  congr 1
  exact List.filter_congr (fun e _ => by rw [h e.1, h e.2])

theorem countUnremoved_congr (G : Graph) {r1 r2 : Nat → Bool} (h : ∀ u, r1 u = r2 u) :
    countUnremoved G r1 = countUnremoved G r2 :=
  countP_agree (fun u _ => by rw [h u])

theorem inducedDeg_addRemoved_adj (G : Graph) {rem : Nat → Bool} {u v : Nat}
    (hv : v < G.n) (hrv : rem v = false) (hadj : G.adjb u v = true) :
    G.inducedDeg (addRemoved rem v) u + 1 = G.inducedDeg rem u := by
  unfold Graph.inducedDeg
  refine (countP_update_true (List.nodup_range G.n) (List.mem_range.mpr hv) ?_ ?_ ?_).symm
  · intro w _ hw
    rw [addRemoved_ne _ hw]
  · simp [hrv, hadj]
  · simp [addRemoved_self]

theorem inducedDeg_addRemoved_nonadj (G : Graph) {rem : Nat → Bool} {u v : Nat}
    (hadj : G.adjb u v = false) :
    G.inducedDeg (addRemoved rem v) u = G.inducedDeg rem u := by
  unfold Graph.inducedDeg
  apply countP_agree
  intro w _
  by_cases hw : w = v
  · subst hw
    simp [hadj]
  · rw [addRemoved_ne _ hw]

/-! ### Edge-list induction lemmas -/

theorem edgesAmong_cons (nn : Nat) (e : Nat × Nat) (tl : List (Nat × Nat)) (rem : Nat → Bool) :
    Graph.edgesAmong ⟨nn, e :: tl⟩ rem =
      (if !rem e.1 && !rem e.2 then 1 else 0) + Graph.edgesAmong ⟨nn, tl⟩ rem := by
  unfold Graph.edgesAmong
  rw [List.filter_cons]
  split <;> simp [Nat.add_comm]

theorem adjb_cons_iff {nn : Nat} {e : Nat × Nat} {tl : List (Nat × Nat)} {u w : Nat} :
    Graph.adjb ⟨nn, e :: tl⟩ u w = true ↔
      (((u, w) = e ∨ (w, u) = e) ∨ Graph.adjb ⟨nn, tl⟩ u w = true) := by
  rw [adjb_iff, adjb_iff]
  simp only [List.mem_cons]
  tauto

theorem adjb_cons_at (nn : Nat) (a b : Nat) (tl : List (Nat × Nat)) :
    Graph.adjb ⟨nn, (a, b) :: tl⟩ a b = true :=
  adjb_cons_iff.mpr (Or.inl (Or.inl rfl))

theorem adjb_cons_pt₁ {nn : Nat} {a b w : Nat} {tl : List (Nat × Nat)}
    (hab : a ≠ b) (hw : w ≠ b) :
    Graph.adjb ⟨nn, (a, b) :: tl⟩ a w = Graph.adjb ⟨nn, tl⟩ a w := by
  apply bool_eq_of_iff
  rw [adjb_cons_iff]
  constructor
  · rintro ((h | h) | h)
    · exact absurd (Prod.ext_iff.mp h).2 hw
    · exact absurd (Prod.ext_iff.mp h).2 hab
    · exact h
  · exact fun h => Or.inr h

theorem adjb_cons_pt₂ {nn : Nat} {a b w : Nat} {tl : List (Nat × Nat)}
    (hab : a ≠ b) (hw : w ≠ a) :
    Graph.adjb ⟨nn, (a, b) :: tl⟩ b w = Graph.adjb ⟨nn, tl⟩ b w := by
  apply bool_eq_of_iff
  rw [adjb_cons_iff]
  constructor
  · rintro ((h | h) | h)
    · exact absurd (Prod.ext_iff.mp h).1.symm hab
    · exact absurd (Prod.ext_iff.mp h).1 hw
    · exact h
  · exact fun h => Or.inr h

theorem adjb_cons_other {nn : Nat} {a b v w : Nat} {tl : List (Nat × Nat)}
    (hva : v ≠ a) (hvb : v ≠ b) :
    Graph.adjb ⟨nn, (a, b) :: tl⟩ v w = Graph.adjb ⟨nn, tl⟩ v w := by
  apply bool_eq_of_iff
  rw [adjb_cons_iff]
  constructor
  · rintro ((h | h) | h)
    · exact absurd (Prod.ext_iff.mp h).1 hva
    · exact absurd (Prod.ext_iff.mp h).2 hvb
    · exact h
  · exact fun h => Or.inr h

theorem adjb_tl_of_pairwise₁ {nn : Nat} {a b : Nat} {tl : List (Nat × Nat)}
    (hpw : ∀ f ∈ tl, ¬ sameEdge (a, b) f) :
    Graph.adjb ⟨nn, tl⟩ a b = false := by
  cases h : Graph.adjb ⟨nn, tl⟩ a b with
  | false => rfl
  | true =>
    rcases adjb_iff.mp h with hm | hm
    · exact absurd (Or.inl rfl) (hpw _ hm)
    · exact absurd (Or.inr ⟨rfl, rfl⟩) (hpw _ hm)

theorem adjb_tl_of_pairwise₂ {nn : Nat} {a b : Nat} {tl : List (Nat × Nat)}
    (hpw : ∀ f ∈ tl, ¬ sameEdge (a, b) f) :
    Graph.adjb ⟨nn, tl⟩ b a = false := by
  cases h : Graph.adjb ⟨nn, tl⟩ b a with
  | false => rfl
  | true =>
    rcases adjb_iff.mp h with hm | hm
    · exact absurd (Or.inr ⟨rfl, rfl⟩) (hpw _ hm)
    · exact absurd (Or.inl rfl) (hpw _ hm)

theorem inducedDeg_cons_incident₁ {nn : Nat} {a b : Nat} {tl : List (Nat × Nat)}
    {rem : Nat → Bool} (hb : b < nn) (hab : a ≠ b)
    (hnb : Graph.adjb ⟨nn, tl⟩ a b = false) :
    Graph.inducedDeg ⟨nn, (a, b) :: tl⟩ rem a =
      Graph.inducedDeg ⟨nn, tl⟩ rem a + (if rem b then 0 else 1) := by
  unfold Graph.inducedDeg
  cases hrb : rem b with
  | true =>
    simp only [if_pos rfl, Nat.add_zero]
    apply countP_agree
    intro w _
    by_cases hw : w = b
    · subst hw
      simp [hrb]
    · rw [adjb_cons_pt₁ hab hw]
  | false =>
    rw [if_neg Bool.false_ne_true]
    exact countP_update_true (List.nodup_range nn) (List.mem_range.mpr hb)
      (fun w _ hw => by rw [adjb_cons_pt₁ hab hw])
      (by simp [hrb, adjb_cons_at])
      (by simp [hnb])

theorem inducedDeg_cons_incident₂ {nn : Nat} {a b : Nat} {tl : List (Nat × Nat)}
    {rem : Nat → Bool} (ha : a < nn) (hab : a ≠ b)
    (hna : Graph.adjb ⟨nn, tl⟩ b a = false) :
    Graph.inducedDeg ⟨nn, (a, b) :: tl⟩ rem b =
      Graph.inducedDeg ⟨nn, tl⟩ rem b + (if rem a then 0 else 1) := by
  unfold Graph.inducedDeg
  cases hra : rem a with
  | true =>
    simp only [if_pos rfl, Nat.add_zero]
    apply countP_agree
    intro w _
    by_cases hw : w = a
    · subst hw
      simp [hra]
    · rw [adjb_cons_pt₂ hab hw]
  | false =>
    rw [if_neg Bool.false_ne_true]
    refine countP_update_true (List.nodup_range nn) (List.mem_range.mpr ha)
      (fun w _ hw => by rw [adjb_cons_pt₂ hab hw])
      ?_
      (by simp [hna])
    have : Graph.adjb ⟨nn, (a, b) :: tl⟩ b a = true :=
      adjb_cons_iff.mpr (Or.inl (Or.inr rfl))
    simp [hra, this]

theorem inducedDeg_cons_other {nn : Nat} {a b v : Nat} {tl : List (Nat × Nat)}
    {rem : Nat → Bool} (hva : v ≠ a) (hvb : v ≠ b) :
    Graph.inducedDeg ⟨nn, (a, b) :: tl⟩ rem v = Graph.inducedDeg ⟨nn, tl⟩ rem v := by
  unfold Graph.inducedDeg
  apply countP_agree
  intro w _
  rw [adjb_cons_other hva hvb]

theorem edgesAmong_addRemoved_aux (nn : Nat) (es : List (Nat × Nat))
    (hend : ∀ e ∈ es, e.1 < nn ∧ e.2 < nn ∧ e.1 ≠ e.2)
    (hpw : es.Pairwise (fun e f => ¬ sameEdge e f)) :
    ∀ (rem : Nat → Bool) (v : Nat), rem v = false →
      Graph.edgesAmong ⟨nn, es⟩ (addRemoved rem v) + Graph.inducedDeg ⟨nn, es⟩ rem v =
        Graph.edgesAmong ⟨nn, es⟩ rem := by
  induction es with
  | nil =>
    intro rem v _
    simp [Graph.edgesAmong, Graph.inducedDeg, Graph.adjb]
  | cons e tl ih =>
    obtain ⟨a, b⟩ := e
    intro rem v hrv
    have ha : a < nn := (hend (a, b) (List.mem_cons_self _ _)).1
    have hb : b < nn := (hend (a, b) (List.mem_cons_self _ _)).2.1
    have hab : a ≠ b := (hend (a, b) (List.mem_cons_self _ _)).2.2
    have hhd := (List.pairwise_cons.mp hpw).1
    have hIH := ih (fun f hf => hend f (List.mem_cons_of_mem _ hf))
      (List.pairwise_cons.mp hpw).2 rem v hrv
    rw [edgesAmong_cons, edgesAmong_cons]
    by_cases hva : v = a
    · have d1 : Graph.inducedDeg ⟨nn, (a, b) :: tl⟩ rem v =
          Graph.inducedDeg ⟨nn, tl⟩ rem v + (if rem b then 0 else 1) := by
        rw [hva]
        exact inducedDeg_cons_incident₁ hb hab (adjb_tl_of_pairwise₁ hhd)
      have e1 : addRemoved rem v a = true := by
        rw [← hva]
        exact addRemoved_self rem v
      have e2 : rem a = false := by rw [← hva]; exact hrv
      rw [d1]
      cases hrb : rem b
      · have e3 : addRemoved rem v b = false := by
          rw [addRemoved_ne rem (fun h => hab (hva ▸ h).symm), hrb]
        simp [e1, e2, e3, hrb]
        omega
      · simp [e1, e2, hrb]
        omega
    · by_cases hvb : v = b
      · have d1 : Graph.inducedDeg ⟨nn, (a, b) :: tl⟩ rem v =
            Graph.inducedDeg ⟨nn, tl⟩ rem v + (if rem a then 0 else 1) := by
          rw [hvb]
          exact inducedDeg_cons_incident₂ ha hab (adjb_tl_of_pairwise₂ hhd)
        have e1 : addRemoved rem v b = true := by
          rw [← hvb]
          exact addRemoved_self rem v
        have e2 : rem b = false := by rw [← hvb]; exact hrv
        rw [d1]
        cases hra : rem a
        · have e3 : addRemoved rem v a = false := by
            rw [addRemoved_ne rem (fun h => hab (hvb ▸ h)), hra]
          simp [e1, e2, e3, hra]
          omega
        · simp [e1, e2, hra]
          omega
      · have d1 : Graph.inducedDeg ⟨nn, (a, b) :: tl⟩ rem v =
            Graph.inducedDeg ⟨nn, tl⟩ rem v := inducedDeg_cons_other hva hvb
        have e1 : addRemoved rem v a = rem a := addRemoved_ne rem (fun h => hva h.symm)
        have e2 : addRemoved rem v b = rem b := addRemoved_ne rem (fun h => hvb h.symm)
        simp only [show ((a, b).1) = a from rfl, show ((a, b).2) = b from rfl]
        rw [d1, e1, e2]
        omega

/-- Removing a still-present vertex destroys exactly its still-present
incident edges. -/
theorem edgesAmong_addRemoved {G : Graph} (hwf : G.Wf) {rem : Nat → Bool} {v : Nat}
    (hrv : rem v = false) :
    G.edgesAmong (addRemoved rem v) + G.inducedDeg rem v = G.edgesAmong rem := by
  obtain ⟨nn, es⟩ := G
  exact edgesAmong_addRemoved_aux nn es hwf.1 hwf.2 rem v hrv

theorem handshake_aux (nn : Nat) (es : List (Nat × Nat))
    (hend : ∀ e ∈ es, e.1 < nn ∧ e.2 < nn ∧ e.1 ≠ e.2)
    (hpw : es.Pairwise (fun e f => ¬ sameEdge e f)) :
    ∀ rem : Nat → Bool,
      2 * Graph.edgesAmong ⟨nn, es⟩ rem =
        (((List.range nn).filter (fun u => !rem u)).map
          (fun u => Graph.inducedDeg ⟨nn, es⟩ rem u)).sum := by
  induction es with
  | nil =>
    intro rem
    have : ∀ u ∈ (List.range nn).filter (fun u => !rem u),
        Graph.inducedDeg ⟨nn, ([] : List (Nat × Nat))⟩ rem u = (fun _ => 0) u := by
      intro u _
      simp [Graph.inducedDeg, Graph.adjb]
    rw [sum_map_agree this]
    simp [Graph.edgesAmong]
  | cons e tl ih =>
    obtain ⟨a, b⟩ := e
    intro rem
    have ha : a < nn := (hend (a, b) (List.mem_cons_self _ _)).1
    have hb : b < nn := (hend (a, b) (List.mem_cons_self _ _)).2.1
    have hab : a ≠ b := (hend (a, b) (List.mem_cons_self _ _)).2.2
    have hhd := (List.pairwise_cons.mp hpw).1
    have hIH := ih (fun f hf => hend f (List.mem_cons_of_mem _ hf))
      (List.pairwise_cons.mp hpw).2 rem
    have hnodupU : ((List.range nn).filter (fun u => !rem u)).Nodup :=
      (List.nodup_range nn).filter _
    have hOther : ∀ u, u ≠ a → u ≠ b →
        Graph.inducedDeg ⟨nn, (a, b) :: tl⟩ rem u = Graph.inducedDeg ⟨nn, tl⟩ rem u :=
      fun u hua hub => inducedDeg_cons_other hua hub
    rw [edgesAmong_cons]
    cases hra : rem a
    · cases hrb : rem b
      · -- both endpoints still present: the new edge adds one to each side's degree
        have hamem : a ∈ (List.range nn).filter (fun u => !rem u) := by
          simp [List.mem_filter, List.mem_range, ha, hra]
        have hbmem : b ∈ (List.range nn).filter (fun u => !rem u) := by
          simp [List.mem_filter, List.mem_range, hb, hrb]
        have hda : Graph.inducedDeg ⟨nn, (a, b) :: tl⟩ rem a =
            Graph.inducedDeg ⟨nn, tl⟩ rem a + 1 := by
          rw [inducedDeg_cons_incident₁ hb hab (adjb_tl_of_pairwise₁ hhd), hrb]
          simp
        have hdb : Graph.inducedDeg ⟨nn, (a, b) :: tl⟩ rem b =
            Graph.inducedDeg ⟨nn, tl⟩ rem b + 1 := by
          rw [inducedDeg_cons_incident₂ ha hab (adjb_tl_of_pairwise₂ hhd), hra]
          simp
        have step1 : (((List.range nn).filter (fun u => !rem u)).map
            (fun u => Graph.inducedDeg ⟨nn, (a, b) :: tl⟩ rem u)).sum =
            (((List.range nn).filter (fun u => !rem u)).map
              (fun u => if u = a then Graph.inducedDeg ⟨nn, tl⟩ rem u + 1
                else Graph.inducedDeg ⟨nn, tl⟩ rem u)).sum + 1 := by
          refine sum_map_succ_at hnodupU hbmem ?_ ?_
          · intro u _ hub
            by_cases hua : u = a
            · rw [if_pos hua, hua, hda]
            · rw [if_neg hua, hOther u hua hub]
          · rw [if_neg (Ne.symm hab), hdb]
        have step2 : (((List.range nn).filter (fun u => !rem u)).map
            (fun u => if u = a then Graph.inducedDeg ⟨nn, tl⟩ rem u + 1
              else Graph.inducedDeg ⟨nn, tl⟩ rem u)).sum =
            (((List.range nn).filter (fun u => !rem u)).map
              (fun u => Graph.inducedDeg ⟨nn, tl⟩ rem u)).sum + 1 := by
          refine sum_map_succ_at hnodupU hamem ?_ ?_
          · intro u _ hua
            rw [if_neg hua]
          · rw [if_pos rfl]
        rw [step1, step2, ← hIH]
        simp [hra, hrb]
        omega
      · -- b already removed: the new edge is dead and degrees over present vertices agree
        have hsum : (((List.range nn).filter (fun u => !rem u)).map
            (fun u => Graph.inducedDeg ⟨nn, (a, b) :: tl⟩ rem u)).sum =
            (((List.range nn).filter (fun u => !rem u)).map
              (fun u => Graph.inducedDeg ⟨nn, tl⟩ rem u)).sum := by
          refine sum_map_agree ?_
          intro u hu
          by_cases hua : u = a
          · rw [hua, inducedDeg_cons_incident₁ hb hab (adjb_tl_of_pairwise₁ hhd), hrb]
            simp
          · by_cases hub : u = b
            · exfalso
              have := (List.mem_filter.mp hu).2
              rw [hub, hrb] at this
              simp at this
            · exact hOther u hua hub
        rw [hsum, ← hIH]
        simp [hra, hrb]
    · -- a already removed
      have hsum : (((List.range nn).filter (fun u => !rem u)).map
          (fun u => Graph.inducedDeg ⟨nn, (a, b) :: tl⟩ rem u)).sum =
          (((List.range nn).filter (fun u => !rem u)).map
            (fun u => Graph.inducedDeg ⟨nn, tl⟩ rem u)).sum := by
        refine sum_map_agree ?_
        intro u hu
        by_cases hua : u = a
        · exfalso
          have := (List.mem_filter.mp hu).2
          rw [hua, hra] at this
          simp at this
        · by_cases hub : u = b
          · rw [hub, inducedDeg_cons_incident₂ ha hab (adjb_tl_of_pairwise₂ hhd), hra]
            simp
          · exact hOther u hua hub
      rw [hsum, ← hIH]
      simp [hra]

/-- Handshake identity: twice the surviving edge count is the sum of the
induced degrees of the surviving vertices. -/
theorem handshake {G : Graph} (hwf : G.Wf) (rem : Nat → Bool) :
    2 * G.edgesAmong rem =
      (((List.range G.n).filter (fun u => !rem u)).map (G.inducedDeg rem)).sum := by
  obtain ⟨nn, es⟩ := G
  exact handshake_aux nn es hwf.1 hwf.2 rem

theorem inducedDeg_lt_count {G : Graph} (hwf : G.Wf) {rem : Nat → Bool} {u : Nat}
    (hu : u < G.n) (hru : rem u = false) :
    G.inducedDeg rem u + 1 ≤ countUnremoved G rem := by
  have h1 : G.inducedDeg rem u ≤ (List.range G.n).countP (fun w => !rem w && !(w == u)) := by
    apply List.countP_mono_left
    intro w _ hpw
    have h2 := Bool.and_eq_true .. |>.mp hpw
    have hne : w ≠ u := fun he => by
      have := h2.2
      rw [he] at this
      rw [adjb_self hwf u] at this
      cases this
    simp [h2.1, hne]
  have h2 : (List.range G.n).countP (fun w => !rem w) =
      (List.range G.n).countP (fun w => !rem w && !(w == u)) + 1 := by
    refine countP_update_true (List.nodup_range G.n) (List.mem_range.mpr hu) ?_ ?_ ?_
    · intro w _ hw
      simp [hw]
    · simp [hru]
    · simp
  unfold countUnremoved
  omega

theorem edges_bound {G : Graph} (hwf : G.Wf) (rem : Nat → Bool) :
    2 * G.edgesAmong rem ≤ countUnremoved G rem * (countUnremoved G rem - 1) := by
  rw [handshake hwf rem]
  have hlen : ((List.range G.n).filter (fun u => !rem u)).length = countUnremoved G rem := by
    unfold countUnremoved
    rw [List.countP_eq_length_filter]
  have hbd : ∀ x ∈ ((List.range G.n).filter (fun u => !rem u)).map (G.inducedDeg rem),
      x ≤ countUnremoved G rem - 1 := by
    intro x hx
    obtain ⟨u, hu, rfl⟩ := List.mem_map.mp hx
    have hu1 : u < G.n := List.mem_range.mp (List.mem_filter.mp hu).1
    have hu2 : rem u = false := by
      have := (List.mem_filter.mp hu).2
      simpa using this
    have := inducedDeg_lt_count hwf hu1 hu2
    omega
  calc (((List.range G.n).filter (fun u => !rem u)).map (G.inducedDeg rem)).sum
      ≤ (((List.range G.n).filter (fun u => !rem u)).map (G.inducedDeg rem)).length •
        (countUnremoved G rem - 1) := List.sum_le_card_nsmul _ _ hbd
    _ = countUnremoved G rem * (countUnremoved G rem - 1) := by
        rw [List.length_map, hlen, smul_eq_mul]

/-! ### Heap lemmas -/

theorem mem_foldl_orderedInsert (f : Nat → Nat × Nat) (l : List Nat) :
    ∀ (h0 : List (Nat × Nat)) (x : Nat × Nat),
      x ∈ l.foldl (fun h u => h.orderedInsert pairLe (f u)) h0 ↔
        x ∈ h0 ∨ ∃ u ∈ l, x = f u := by
  induction l with
  | nil => simp
  | cons a tl ih =>
    intro h0 x
    simp only [List.foldl_cons]
    rw [ih]
    constructor
    · rintro (hx | ⟨u, hu, rfl⟩)
      · rcases (List.mem_orderedInsert pairLe).mp hx with rfl | hx0
        · exact Or.inr ⟨a, List.mem_cons_self a tl, rfl⟩
        · exact Or.inl hx0
      · exact Or.inr ⟨u, List.mem_cons_of_mem _ hu, rfl⟩
    · rintro (hx | ⟨u, hu, rfl⟩)
      · exact Or.inl ((List.mem_orderedInsert pairLe).mpr (Or.inr hx))
      · rcases List.mem_cons.mp hu with rfl | hu2
        · exact Or.inl ((List.mem_orderedInsert pairLe).mpr (Or.inl rfl))
        · exact Or.inr ⟨u, hu2, rfl⟩

theorem sorted_foldl_orderedInsert (f : Nat → Nat × Nat) (l : List Nat) :
    ∀ h0 : List (Nat × Nat), h0.Sorted pairLe →
      (l.foldl (fun h u => h.orderedInsert pairLe (f u)) h0).Sorted pairLe := by
  induction l with
  | nil => exact fun h0 h => h
  | cons a tl ih =>
    intro h0 h
    simp only [List.foldl_cons]
    exact ih _ (h.orderedInsert (f a) h0)

theorem length_foldl_orderedInsert (f : Nat → Nat × Nat) (l : List Nat) :
    ∀ h0 : List (Nat × Nat),
      (l.foldl (fun h u => h.orderedInsert pairLe (f u)) h0).length = h0.length + l.length := by
  induction l with
  | nil => simp
  | cons a tl ih =>
    intro h0
    simp only [List.foldl_cons]
    rw [ih, List.orderedInsert_length, List.length_cons]
    omega

/-! ### The heap-loop invariant -/

theorem inv_init (G : Graph) : Inv G (initState G) := by
  constructor
  · exact List.sorted_insertionSort pairLe _
  · intro p hp
    have hp' : p ∈ (List.range G.n).map (fun v => (G.inducedDeg (fun _ => false) v, v)) :=
      (List.perm_insertionSort pairLe _).mem_iff.mp hp
    obtain ⟨v, hv, rfl⟩ := List.mem_map.mp hp'
    exact ⟨List.mem_range.mp hv, fun _ => le_refl _⟩
  · intro u hu _
    apply (List.perm_insertionSort pairLe _).mem_iff.mpr
    exact List.mem_map.mpr ⟨u, List.mem_range.mpr hu, rfl⟩
  · intro u _
    rfl
  · show G.edges.length = G.edgesAmong (fun _ => false)
    unfold Graph.edgesAmong
    simp
  · show G.n = countUnremoved G (fun _ => false)
    unfold countUnremoved
    simp
  · intro u _
    rfl

theorem inv_skip {G : Graph} {s : ElimState} {d v : Nat} {rest : List (Nat × Nat)}
    (hinv : Inv G s) (hh : s.heap = (d, v) :: rest) (hrv : s.removed v = true) :
    Inv G { s with heap := rest } := by
  constructor
  · have h1 := hinv.sorted
    rw [hh] at h1
    exact h1.of_cons
  · intro p hp
    exact hinv.entries p (by rw [hh]; exact List.mem_cons_of_mem _ hp)
  · intro u hu hru
    have hmem := hinv.covers u hu hru
    rw [hh] at hmem
    rcases List.mem_cons.mp hmem with heq | hmem2
    · exfalso
      rw [Prod.mk.injEq] at heq
      have hru' : s.removed u = false := hru
      rw [heq.2, hrv] at hru'
      cases hru'
    · exact hmem2
  · exact hinv.degsOk
  · exact hinv.edgesOk
  · exact hinv.vertsOk
  · exact hinv.inRange

theorem pop_head_facts {G : Graph} {s : ElimState} {d v : Nat} {rest : List (Nat × Nat)}
    (hinv : Inv G s) (hh : s.heap = (d, v) :: rest) (hrv : s.removed v = false) :
    d = s.degs v ∧ v < G.n := by
  have hvn : v < G.n :=
    (hinv.entries (d, v) (by rw [hh]; exact List.mem_cons_self _ _)).1
  have hge : s.degs v ≤ d :=
    (hinv.entries (d, v) (by rw [hh]; exact List.mem_cons_self _ _)).2 hrv
  have hmem := hinv.covers v hvn hrv
  rw [hh] at hmem
  rcases List.mem_cons.mp hmem with heq | hmem2
  · rw [Prod.mk.injEq] at heq
    exact ⟨heq.1.symm, hvn⟩
  · have hsorted := hinv.sorted
    rw [hh] at hsorted
    have hle := List.rel_of_sorted_cons hsorted _ hmem2
    unfold pairLe at hle
    refine ⟨?_, hvn⟩
    rcases hle with h1 | ⟨h1, _⟩
    · omega
    · exact h1

theorem addRemoved_false_iff {rem : Nat → Bool} {v u : Nat} :
    addRemoved rem v u = false ↔ (u ≠ v ∧ rem u = false) := by
  simp [addRemoved]

theorem rmStep_removed (G : Graph) (s : ElimState) (d v : Nat) (rest : List (Nat × Nat)) :
    (rmStep G s d v rest).removed = addRemoved s.removed v := rfl

theorem rmStep_verticesRem (G : Graph) (s : ElimState) (d v : Nat) (rest : List (Nat × Nat)) :
    (rmStep G s d v rest).verticesRem = s.verticesRem - 1 := rfl

theorem rmStep_edgesRem (G : Graph) (s : ElimState) (d v : Nat) (rest : List (Nat × Nat)) :
    (rmStep G s d v rest).edgesRem = s.edgesRem - d := rfl

theorem rmStep_degs (G : Graph) (s : ElimState) (d v : Nat) (rest : List (Nat × Nat)) (w : Nat) :
    (rmStep G s d v rest).degs w =
      if w ∈ (List.range G.n).filter (fun u => G.adjb v u && !(addRemoved s.removed v) u)
      then s.degs w - 1 else s.degs w := rfl

theorem rmStep_heap (G : Graph) (s : ElimState) (d v : Nat) (rest : List (Nat × Nat)) :
    (rmStep G s d v rest).heap =
      ((List.range G.n).filter (fun u => G.adjb v u && !(addRemoved s.removed v) u)).foldl
        (fun h u => h.orderedInsert pairLe (s.degs u - 1, u)) rest := rfl

theorem ns_iff {G : Graph} {rem : Nat → Bool} {v u : Nat} :
    u ∈ (List.range G.n).filter (fun w => G.adjb v w && !(addRemoved rem v) w) ↔
      (u < G.n ∧ G.adjb v u = true ∧ u ≠ v ∧ rem u = false) := by
  rw [List.mem_filter, List.mem_range]
  constructor
  · rintro ⟨h1, h2⟩
    have h3 := (Bool.and_eq_true ..).mp h2
    have h4 := addRemoved_false_iff.mp (by
      cases hcase : addRemoved rem v u
      · rfl
      · rw [hcase] at h3
        cases h3.2)
    exact ⟨h1, h3.1, h4.1, h4.2⟩
  · rintro ⟨h1, h2, h3, h4⟩
    refine ⟨h1, ?_⟩
    rw [h2, addRemoved_false_iff.mpr ⟨h3, h4⟩]
    rfl

theorem ns_length {G : Graph} (hwf : G.Wf) {rem : Nat → Bool} {v : Nat}
    (hrv : rem v = false) :
    ((List.range G.n).filter (fun w => G.adjb v w && !(addRemoved rem v) w)).length =
      G.inducedDeg rem v := by
  rw [← List.countP_eq_length_filter]
  unfold Graph.inducedDeg
  apply countP_agree
  intro u _
  by_cases hu : u = v
  · subst hu
    simp [adjb_self hwf, addRemoved_self]
  · rw [show (addRemoved rem v) u = rem u from addRemoved_ne _ hu]
    cases G.adjb v u <;> cases rem u <;> simp

theorem inv_rmStep {G : Graph} (hwf : G.Wf) {s : ElimState} {d v : Nat}
    {rest : List (Nat × Nat)}
    (hinv : Inv G s) (hh : s.heap = (d, v) :: rest) (hrv : s.removed v = false) :
    Inv G (rmStep G s d v rest) := by
  obtain ⟨hd, hvn⟩ := pop_head_facts hinv hh hrv
  have hsorted_rest : rest.Sorted pairLe := by
    have h1 := hinv.sorted
    rw [hh] at h1
    exact h1.of_cons
  refine ⟨?_, ?_, ?_, ?_, ?_, ?_, ?_⟩
  · rw [rmStep_heap]
    exact sorted_foldl_orderedInsert _ _ rest hsorted_rest
  · intro p hp
    rw [rmStep_heap, mem_foldl_orderedInsert] at hp
    rcases hp with hp | ⟨u, hu, rfl⟩
    · have h2 := hinv.entries p (by rw [hh]; exact List.mem_cons_of_mem _ hp)
      refine ⟨h2.1, fun hpu => ?_⟩
      rw [rmStep_removed] at hpu
      have h3 := addRemoved_false_iff.mp hpu
      have h4 := h2.2 h3.2
      rw [rmStep_degs]
      split <;> omega
    · have h1 := ns_iff.mp hu
      refine ⟨h1.1, fun _ => ?_⟩
      rw [rmStep_degs]
      rw [if_pos hu]
  · intro u hu hru
    rw [rmStep_removed] at hru
    have h1 := addRemoved_false_iff.mp hru
    rw [rmStep_heap, mem_foldl_orderedInsert]
    by_cases hmem : u ∈ (List.range G.n).filter
        (fun w => G.adjb v w && !(addRemoved s.removed v) w)
    · refine Or.inr ⟨u, hmem, ?_⟩
      rw [rmStep_degs, if_pos hmem]
    · refine Or.inl ?_
      have h2 := hinv.covers u hu h1.2
      rw [hh] at h2
      rcases List.mem_cons.mp h2 with heq | h3
      · exfalso
        rw [Prod.mk.injEq] at heq
        exact h1.1 heq.2
      · rw [rmStep_degs, if_neg hmem]
        exact h3
  · intro u hru
    rw [rmStep_removed] at hru
    have h1 := addRemoved_false_iff.mp hru
    rw [rmStep_degs, rmStep_removed]
    by_cases hmem : u ∈ (List.range G.n).filter
        (fun w => G.adjb v w && !(addRemoved s.removed v) w)
    · rw [if_pos hmem]
      have h2 := ns_iff.mp hmem
      have h3 := hinv.degsOk u h1.2
      have hadj : G.adjb u v = true := by
        rw [adjb_comm]
        exact h2.2.1
      have h4 := inducedDeg_addRemoved_adj G hvn hrv hadj
      omega
    · rw [if_neg hmem]
      have hnadj : G.adjb u v = false := by
        cases hcase : G.adjb u v
        · rfl
        · exfalso
          have h5 : G.adjb v u = true := by rw [adjb_comm]; exact hcase
          have h6 : u < G.n := (adjb_lt hwf hcase).1
          exact hmem (ns_iff.mpr ⟨h6, h5, h1.1, h1.2⟩)
      rw [inducedDeg_addRemoved_nonadj G hnadj]
      exact hinv.degsOk u h1.2
  · rw [rmStep_edgesRem, rmStep_removed]
    have h1 := edgesAmong_addRemoved hwf hrv
    have h2 := hinv.edgesOk
    have h3 := hinv.degsOk v hrv
    omega
  · rw [rmStep_verticesRem, rmStep_removed]
    have h1 := countUnremoved_addRemoved G hvn hrv
    have h2 := hinv.vertsOk
    omega
  · intro u hu
    rw [rmStep_removed]
    have h1 : u ≠ v := by omega
    rw [addRemoved_ne _ h1]
    exact hinv.inRange u hu

/-- Master induction: with sufficient fuel the heap loop produces a
semantically valid removal record and drains the graph completely. -/
theorem elimLoop_valid {G : Graph} (hwf : G.Wf) :
    ∀ (fuel : Nat) (s : ElimState), Inv G s → elimMeasure G s < fuel →
      ValidTrace G s.removed (elimLoop G fuel s) := by
  intro fuel
  induction fuel with
  | zero =>
    intro s _ hlt
    exact absurd hlt (Nat.not_lt_zero _)
  | succ fuel ih =>
    intro s hinv hlt
    cases hh : s.heap with
    | nil =>
      simp only [elimLoop, hh]
      show ∀ u, u < G.n → s.removed u = true
      intro u hu
      cases hru : s.removed u with
      | true => rfl
      | false =>
        exfalso
        have h2 := hinv.covers u hu hru
        rw [hh] at h2
        cases h2
    | cons p rest =>
      obtain ⟨d, v⟩ := p
      by_cases hrv : s.removed v = true
      · simp only [elimLoop, hh, hrv, if_true]
        have hm : elimMeasure G { s with heap := rest } < fuel := by
          unfold elimMeasure at hlt ⊢
          rw [hh, List.length_cons] at hlt
          show rest.length + 2 * G.edgesAmong s.removed < fuel
          omega
        exact ih _ (inv_skip hinv hh hrv) hm
      · have hrv' : s.removed v = false := by
          simp only [Bool.not_eq_true] at hrv
          exact hrv
        obtain ⟨hd, hvn⟩ := pop_head_facts hinv hh hrv'
        simp only [elimLoop, hh, hrv', Bool.false_eq_true, if_false]
        have hm : elimMeasure G (rmStep G s d v rest) < fuel := by
          have hEq := edgesAmong_addRemoved hwf hrv'
          have hLen : (rmStep G s d v rest).heap.length =
              rest.length + G.inducedDeg s.removed v := by
            rw [rmStep_heap, length_foldl_orderedInsert, ns_length hwf hrv']
          unfold elimMeasure at hlt ⊢
          rw [hh, List.length_cons] at hlt
          rw [hLen, rmStep_removed]
          omega
        refine ⟨hrv', hvn, ?_, hinv.vertsOk, hinv.edgesOk, ?_⟩
        · rw [hd]
          exact hinv.degsOk v hrv'
        · exact ih _ (inv_rmStep hwf hinv hh hrv') hm

/-- The full elimination record is a valid trace from the fresh state. -/
theorem elimRecord_valid {G : Graph} (hwf : G.Wf) :
    ValidTrace G (fun _ => false) (elimRecord G) := by
  have hE : G.edgesAmong (fun _ => false) = G.edges.length := by
    unfold Graph.edgesAmong
    simp
  have h1 : elimMeasure G (initState G) < G.n + 2 * G.edges.length + 1 := by
    unfold elimMeasure
    show (((List.range G.n).map
        (fun v => (G.inducedDeg (fun _ => false) v, v))).insertionSort pairLe).length +
        2 * G.edgesAmong (fun _ => false) < G.n + 2 * G.edges.length + 1
    rw [List.length_insertionSort, List.length_map, List.length_range, hE]
    omega
  exact elimLoop_valid hwf _ _ (inv_init G) h1

theorem validTrace_length {G : Graph} :
    ∀ {recs : List RemovalEntry} {rem : Nat → Bool}, ValidTrace G rem recs →
      recs.length = countUnremoved G rem := by
  intro recs
  induction recs with
  | nil =>
    intro rem hvt
    have h1 : ∀ u ∈ List.range G.n, ¬ ((fun u => !rem u) u = true) := by
      intro u hu
      have := hvt u (List.mem_range.mp hu)
      simp [this]
    unfold countUnremoved
    rw [List.length_nil, Eq.comm, List.countP_eq_zero]
    exact h1
  | cons r rs ih =>
    intro rem hvt
    obtain ⟨h1, h2, _, _, _, h6⟩ := hvt
    have h7 := ih h6
    have h8 := countUnremoved_addRemoved G h2 h1
    rw [List.length_cons, h7]
    omega

theorem elimRecord_length {G : Graph} (hwf : G.Wf) : (elimRecord G).length = G.n := by
  rw [validTrace_length (elimRecord_valid hwf)]
  unfold countUnremoved
  simp

/-- The two counters recorded along any run of the heap loop follow the
`vertices_remaining -= 1` / `edges_remaining -= deg` bookkeeping. -/
theorem elimLoop_chain (G : Graph) :
    ∀ (fuel : Nat) (s : ElimState), StatesChain s.verticesRem s.edgesRem (elimLoop G fuel s) := by
  intro fuel
  induction fuel with
  | zero =>
    intro s
    exact trivial
  | succ fuel ih =>
    intro s
    cases hh : s.heap with
    | nil =>
      simp only [elimLoop, hh]
      exact trivial
    | cons p rest =>
      obtain ⟨d, v⟩ := p
      by_cases hrv : s.removed v = true
      · simp only [elimLoop, hh, hrv, if_true]
        exact ih { s with heap := rest }
      · have hrv' : s.removed v = false := by
          simp only [Bool.not_eq_true] at hrv
          exact hrv
        simp only [elimLoop, hh, hrv', Bool.false_eq_true, if_false]
        exact ⟨rfl, rfl, ih (rmStep G s d v rest)⟩

theorem elimRecord_chain (G : Graph) :
    StatesChain G.n G.edges.length (elimRecord G) :=
  elimLoop_chain G _ (initState G)

/-- Field-level reading of a valid trace at one index: entry `i` removes
a still-present vertex and carries the true degree and the true
vertex/edge counts of the graph induced on what is left after the first
`i` removals. -/
theorem validTrace_getD {G : Graph} :
    ∀ {recs : List RemovalEntry} {rem : Nat → Bool}, ValidTrace G rem recs →
      ∀ i, i < recs.length →
        (removedAfterFrom rem (recs.take i)) (recs.getD i dfltEntry).vtx = false ∧
        (recs.getD i dfltEntry).vtx < G.n ∧
        (recs.getD i dfltEntry).degAtRemoval =
          G.inducedDeg (removedAfterFrom rem (recs.take i)) (recs.getD i dfltEntry).vtx ∧
        (recs.getD i dfltEntry).verticesBefore =
          countUnremoved G (removedAfterFrom rem (recs.take i)) ∧
        (recs.getD i dfltEntry).edgesBefore =
          G.edgesAmong (removedAfterFrom rem (recs.take i)) := by
  intro recs
  induction recs with
  | nil =>
    intro rem _ i hi
    exact absurd hi (by simp)
  | cons r rs ih =>
    intro rem hvt i hi
    obtain ⟨h1, h2, h3, h4, h5, h6⟩ := hvt
    cases i with
    | zero =>
      exact ⟨h1, h2, h3, h4, h5⟩
    | succ i =>
      have hi' : i < rs.length := by
        rw [List.length_cons] at hi
        omega
      exact ih h6 i hi'

/-! ### The all-k state list agrees with the per-removal states -/

theorem chain_before_pairs :
    ∀ (recs : List RemovalEntry) (v e : Nat), StatesChain v e recs → recs ≠ [] →
      (v, e) :: (recs.take (recs.length - 1)).map
          (fun r => (r.verticesBefore - 1, r.edgesBefore - r.degAtRemoval)) =
        recs.map (fun r => (r.verticesBefore, r.edgesBefore)) := by
  intro recs
  induction recs with
  | nil =>
    intro v e _ hne
    exact absurd rfl hne
  | cons r rs ih =>
    intro v e hch _
    obtain ⟨hv, he, hch2⟩ := hch
    by_cases hrs : rs = ([] : List RemovalEntry)
    · subst hrs
      simp [hv, he]
    · have hpos : 1 ≤ rs.length := List.length_pos.mpr hrs
      have hlen : (r :: rs).length - 1 = (rs.length - 1) + 1 := by
        rw [List.length_cons]
        omega
      rw [hlen, List.take_succ_cons, List.map_cons, List.map_cons, hv, he]
      congr 1
      exact ih (v - 1) (e - r.degAtRemoval) hch2 hrs

theorem statesAllDk_eq {G : Graph} (hwf : G.Wf) (hn : 1 ≤ G.n) :
    statesAllDk G = (elimRecord G).map (fun r => (r.verticesBefore, r.edgesBefore)) := by
  unfold statesAllDk
  have hlen := elimRecord_length hwf
  have hne : elimRecord G ≠ [] := by
    intro h
    rw [h] at hlen
    simp at hlen
    omega
  have h1 := chain_before_pairs (elimRecord G) G.n G.edges.length (elimRecord_chain G) hne
  rw [← hlen] at *
  exact h1

/-! ### Folded maxima over rational average degrees -/

theorem foldl_guard_eq_filter {α : Type} (p : α → Prop) [DecidablePred p] (f : α → ℚ) :
    ∀ (l : List α) (a : ℚ),
      l.foldl (fun acc x => if p x then max acc (f x) else acc) a =
        (l.filter (fun x => decide (p x))).foldl (fun acc x => max acc (f x)) a := by
  intro l
  induction l with
  | nil =>
    intro a
    rfl
  | cons x xs ih =>
    intro a
    by_cases hx : p x
    · rw [List.foldl_cons, if_pos hx, ih, List.filter_cons, if_pos (by simpa using hx),
        List.foldl_cons]
    · rw [List.foldl_cons, if_neg hx, ih, List.filter_cons, if_neg (by simpa using hx)]

theorem init_le_foldl_max {α : Type} (f : α → ℚ) :
    ∀ (l : List α) (a : ℚ), a ≤ l.foldl (fun acc q => max acc (f q)) a := by
  intro l
  induction l with
  | nil =>
    intro a
    exact le_refl a
  | cons y ys ih =>
    intro a
    simp only [List.foldl_cons]
    exact le_trans (le_max_left a (f y)) (ih (max a (f y)))

theorem le_foldl_max {α : Type} (f : α → ℚ) :
    ∀ (l : List α) (a : ℚ) {x : α}, x ∈ l →
      f x ≤ l.foldl (fun acc q => max acc (f q)) a := by
  intro l
  induction l with
  | nil =>
    intro a x hx
    cases hx
  | cons y ys ih =>
    intro a x hx
    rcases List.mem_cons.mp hx with rfl | hx2
    · simp only [List.foldl_cons]
      exact le_trans (le_max_right a (f x)) (init_le_foldl_max f ys (max a (f x)))
    · exact ih (max a (f y)) hx2

theorem foldl_max_le {α : Type} (f : α → ℚ) (b : ℚ) :
    ∀ (l : List α) (a : ℚ), a ≤ b → (∀ x ∈ l, f x ≤ b) →
      l.foldl (fun acc q => max acc (f q)) a ≤ b := by
  intro l
  induction l with
  | nil =>
    intro a ha _
    exact ha
  | cons y ys ih =>
    intro a ha hall
    simp only [List.foldl_cons]
    exact ih _ (max_le ha (hall y (List.mem_cons_self y ys)))
      (fun x hx => hall x (List.mem_cons_of_mem _ hx))

theorem all_dk_eq_single_dk {G : Graph} (hwf : G.Wf) {k : Nat} (hk : k < G.n) :
    compute_all_dk G k = compute_dk G (k : ℤ) := by
  have hn : 1 ≤ G.n := by omega
  have hguard : ¬ ((G.n : ℤ) ≤ (k : ℤ)) := by exact_mod_cast Nat.not_le.mpr hk
  have htn : ((k : ℤ)).toNat = k := Int.toNat_natCast k
  have hpred : ((elimRecord G).map (fun r => (r.verticesBefore, r.edgesBefore))).filter
      (fun q => decide (k < q.1 ∧ 0 < q.1)) =
      ((elimRecord G).filter (fun e => decide (k < e.verticesBefore))).map
        (fun r => (r.verticesBefore, r.edgesBefore)) := by
    have hq : ((elimRecord G).map (fun r => (r.verticesBefore, r.edgesBefore))).filter
        (fun q => decide (k < q.1 ∧ 0 < q.1)) =
        ((elimRecord G).map (fun r => (r.verticesBefore, r.edgesBefore))).filter
          (fun q : Nat × Nat => decide (k < q.1)) :=
      List.filter_congr (fun q _ => by
        refine decide_eq_decide.mpr ?_
        exact ⟨fun h => h.1, fun h => ⟨h, Nat.lt_of_le_of_lt (Nat.zero_le k) h⟩⟩)
    rw [hq, List.filter_map]
    exact congrArg _ (List.filter_congr (fun e _ => rfl))
  have hinner :
      (statesAllDk G).foldl
        (fun acc p => if k < p.1 ∧ 0 < p.1 then
          max acc ((2 * (p.2 : ℚ)) / (p.1 : ℚ)) else acc) 0 =
      maxAvgOver (((elimRecord G).filter (fun e => decide (k < e.verticesBefore))).map
        (fun e => (e.verticesBefore, e.edgesBefore))) := by
    rw [statesAllDk_eq hwf hn]
    rw [foldl_guard_eq_filter (fun q : Nat × Nat => k < q.1 ∧ 0 < q.1)
      (fun p : Nat × Nat => (2 * (p.2 : ℚ)) / (p.1 : ℚ))]
    unfold maxAvgOver
    rw [hpred]
  simp only [compute_all_dk, computeDkFromStates, compute_dk]
  rw [if_neg hguard, htn, hinner]

/-! ### The linear-scan elimination of the networkx algorithm -/

theorem scanMin_foldl_some (l : List (Nat × Nat)) :
    ∀ q : Nat × Nat,
      l.foldl (fun acc p =>
        match acc with
        | none => some p
        | some q => if p.2 < q.2 then some p else some q) (some q) ≠ none := by
  induction l with
  | nil =>
    intro q h
    cases h
  | cons x xs ih =>
    intro q
    simp only [List.foldl_cons]
    by_cases hx : x.2 < q.2
    · rw [if_pos hx]
      exact ih x
    · rw [if_neg hx]
      exact ih q

theorem scanMin_aux_mem (l : List (Nat × Nat)) :
    ∀ (acc : Option (Nat × Nat)) (p : Nat × Nat),
      l.foldl (fun acc p =>
        match acc with
        | none => some p
        | some q => if p.2 < q.2 then some p else some q) acc = some p →
      p ∈ l ∨ acc = some p := by
  induction l with
  | nil =>
    intro acc p h
    exact Or.inr h
  | cons x xs ih =>
    intro acc p h
    rw [List.foldl_cons] at h
    rcases ih _ p h with hm | hacc
    · exact Or.inl (List.mem_cons_of_mem _ hm)
    · cases acc with
      | none =>
        rw [Option.some.injEq] at hacc
        exact Or.inl (hacc ▸ List.mem_cons_self x xs)
      | some q =>
        dsimp only at hacc
        by_cases hx : x.2 < q.2
        · rw [if_pos hx, Option.some.injEq] at hacc
          exact Or.inl (hacc ▸ List.mem_cons_self x xs)
        · rw [if_neg hx] at hacc
          exact Or.inr hacc

theorem scanMin_mem {l : List (Nat × Nat)} {p : Nat × Nat} (h : scanMin l = some p) :
    p ∈ l := by
  rcases scanMin_aux_mem l none p h with hm | hacc
  · exact hm
  · cases hacc

theorem scanMin_eq_none_iff {l : List (Nat × Nat)} : scanMin l = none ↔ l = [] := by
  constructor
  · intro h
    cases l with
    | nil => rfl
    | cons x xs =>
      exfalso
      unfold scanMin at h
      rw [List.foldl_cons] at h
      exact scanMin_foldl_some xs x h
  · intro h
    rw [h]
    rfl

theorem candidateList_mem {G : Graph} {rem : Nat → Bool} {v d : Nat} :
    (v, d) ∈ candidateList G rem ↔
      (v < G.n ∧ rem v = false ∧ d = G.inducedDeg rem v) := by
  unfold candidateList
  rw [List.mem_map]
  constructor
  · rintro ⟨u, hu, heq⟩
    rw [Prod.mk.injEq] at heq
    obtain ⟨rfl, h2⟩ := heq
    have h3 := List.mem_filter.mp hu
    exact ⟨List.mem_range.mp h3.1, by simpa using h3.2, h2.symm⟩
  · rintro ⟨h1, h2, h3⟩
    exact ⟨v, List.mem_filter.mpr ⟨List.mem_range.mpr h1, by simp [h2]⟩, by rw [h3]⟩

theorem candidateList_eq_nil_iff {G : Graph} {rem : Nat → Bool} :
    candidateList G rem = [] ↔ countUnremoved G rem = 0 := by
  unfold candidateList countUnremoved
  rw [List.map_eq_nil_iff, List.countP_eq_length_filter, List.length_eq_zero]

theorem scanElimAux_length (G : Graph) :
    ∀ (fuel : Nat) (rem : Nat → Bool),
      (scanElimAux G fuel rem).length = min fuel (countUnremoved G rem) := by
  intro fuel
  induction fuel with
  | zero =>
    intro rem
    simp [scanElimAux]
  | succ fuel ih =>
    intro rem
    cases hsm : scanMin (candidateList G rem) with
    | none =>
      have hempty := scanMin_eq_none_iff.mp hsm
      have hcount := candidateList_eq_nil_iff.mp hempty
      simp [scanElimAux, hsm, hcount]
    | some p =>
      obtain ⟨v, d⟩ := p
      have hmem := candidateList_mem.mp (scanMin_mem hsm)
      have hcount := countUnremoved_addRemoved G hmem.1 hmem.2.1
      simp only [scanElimAux, hsm, List.length_cons, ih]
      omega

theorem scanElim_length (G : Graph) : (scanElim G).length = G.n := by
  unfold scanElim
  rw [scanElimAux_length]
  have : countUnremoved G (fun _ => false) = G.n := by
    unfold countUnremoved
    simp
  rw [this]
  omega

/-! ### Complete graphs -/

theorem completeEdges_succ (n : Nat) :
    completeEdges (n + 1) = completeEdges n ++ (List.range n).map (fun i => (i, n)) := by
  unfold completeEdges
  rw [List.range_succ, List.flatMap_append]
  simp

theorem completeEdges_mem {n : Nat} {e : Nat × Nat} :
    e ∈ completeEdges n ↔ (e.1 < e.2 ∧ e.2 < n) := by
  unfold completeEdges
  rw [List.mem_flatMap]
  constructor
  · rintro ⟨j, hj, hm⟩
    obtain ⟨i, hi, rfl⟩ := List.mem_map.mp hm
    exact ⟨List.mem_range.mp hi, List.mem_range.mp hj⟩
  · rintro ⟨h1, h2⟩
    exact ⟨e.2, List.mem_range.mpr h2, List.mem_map.mpr ⟨e.1, List.mem_range.mpr h1,
      Prod.mk.eta⟩⟩

theorem completeGraph_wf (n : Nat) : (completeGraph n).Wf := by
  constructor
  · intro e he
    have h := completeEdges_mem.mp he
    have hGn : (completeGraph n).n = n := rfl
    exact ⟨by omega, by omega, by omega⟩
  · show (completeEdges n).Pairwise (fun e f => ¬ sameEdge e f)
    induction n with
    | zero => exact List.Pairwise.nil
    | succ n ih =>
      rw [completeEdges_succ, List.pairwise_append]
      refine ⟨ih, ?_, ?_⟩
      · rw [List.pairwise_map]
        refine (List.pairwise_lt_range n).imp ?_
        intro i j hij hsame
        rcases hsame with heq | ⟨h1, h2⟩
        · rw [Prod.mk.injEq] at heq
          omega
        · simp only at h1 h2
          omega
      · intro a ha b hb hsame
        have h1 := completeEdges_mem.mp ha
        obtain ⟨i, _, rfl⟩ := List.mem_map.mp hb
        rcases hsame with heq | ⟨h2, h3⟩
        · rw [heq] at h1
          simp only at h1
          omega
        · simp only at h2 h3
          omega

theorem two_mul_completeEdges_length (n : Nat) :
    2 * (completeEdges n).length = n * (n - 1) := by
  induction n with
  | zero => rfl
  | succ n ih =>
    rw [completeEdges_succ, List.length_append, List.length_map, List.length_range]
    have h1 : (n + 1) * (n + 1 - 1) = n * (n - 1) + 2 * n := by
      cases n with
      | zero => rfl
      | succ m =>
        simp only [Nat.add_sub_cancel]
        ring
    omega

theorem validTrace_mem {G : Graph} :
    ∀ {recs : List RemovalEntry} {rem : Nat → Bool}, ValidTrace G rem recs →
      ∀ e ∈ recs, ∃ rem2 : Nat → Bool,
        rem2 e.vtx = false ∧ e.vtx < G.n ∧
        e.degAtRemoval = G.inducedDeg rem2 e.vtx ∧
        e.verticesBefore = countUnremoved G rem2 ∧
        e.edgesBefore = G.edgesAmong rem2 := by
  intro recs
  induction recs with
  | nil =>
    intro rem _ e he
    cases he
  | cons r rs ih =>
    intro rem hvt e he
    obtain ⟨h1, h2, h3, h4, h5, h6⟩ := hvt
    rcases List.mem_cons.mp he with rfl | he2
    · exact ⟨rem, h1, h2, h3, h4, h5⟩
    · exact ih h6 e he2

set_option maxHeartbeats 1000000 in
theorem compute_dk_complete (n : Nat) (hn : 1 ≤ n) :
    compute_dk (completeGraph n) 0 = n - 1 := by
  have hwf := completeGraph_wf n
  have hGn : (completeGraph n).n = n := rfl
  have hvalid := elimRecord_valid hwf
  have hlen : (elimRecord (completeGraph n)).length = n := by
    rw [elimRecord_length hwf, hGn]
  have hml : 2 * (completeGraph n).edges.length = n * (n - 1) :=
    two_mul_completeEdges_length n
  have hnQ : (1 : ℚ) ≤ (n : ℚ) := by exact_mod_cast hn
  -- every tracked state has average degree at most n - 1
  have hbound : ∀ p ∈ ((elimRecord (completeGraph n)).filter
        (fun e => decide (0 < e.verticesBefore))).map
        (fun e => (e.verticesBefore, e.edgesBefore)),
      (2 * ((p : Nat × Nat).2 : ℚ)) / ((p : Nat × Nat).1 : ℚ) ≤ (n : ℚ) - 1 := by
    intro p hp
    obtain ⟨e, he, rfl⟩ := List.mem_map.mp hp
    have he1 := (List.mem_filter.mp he).1
    obtain ⟨rem2, hr1, hr2, _, hr4, hr5⟩ := validTrace_mem hvalid e he1
    have hv1 : 1 ≤ e.verticesBefore := by
      have := countUnremoved_pos (completeGraph n) hr2 hr1
      omega
    have hv2 : e.verticesBefore ≤ n := by
      have := countUnremoved_le (completeGraph n) rem2
      omega
    have hed : 2 * e.edgesBefore ≤ e.verticesBefore * (e.verticesBefore - 1) := by
      rw [hr4, hr5]
      exact edges_bound hwf rem2
    have hvpos : (0 : ℚ) < (e.verticesBefore : ℚ) := by exact_mod_cast hv1
    rw [div_le_iff₀ hvpos]
    have hedQ : (2 * (e.edgesBefore : ℚ)) ≤
        (e.verticesBefore : ℚ) * ((e.verticesBefore : ℚ) - 1) := by
      have hcast : ((e.verticesBefore - 1 : ℕ) : ℚ) = (e.verticesBefore : ℚ) - 1 := by
        push_cast [hv1]
        ring
      rw [← hcast]
      exact_mod_cast hed
    have hvn : (e.verticesBefore : ℚ) ≤ (n : ℚ) := by exact_mod_cast hv2
    nlinarith [hvpos, hedQ, hvn]
  -- the initial state is tracked and attains average degree n - 1
  obtain ⟨r0, rest, hrecs⟩ : ∃ r0 rest, elimRecord (completeGraph n) = r0 :: rest := by
    cases h : elimRecord (completeGraph n) with
    | nil =>
      rw [h] at hlen
      simp at hlen
      omega
    | cons a l => exact ⟨a, l, rfl⟩
  have h0 := validTrace_getD hvalid 0 (by omega)
  have hget0 : (elimRecord (completeGraph n)).getD 0 dfltEntry = r0 := by
    rw [hrecs]
    rfl
  have h0v : r0.verticesBefore = n := by
    have h1 := h0.2.2.2.1
    rw [hget0] at h1
    rw [h1]
    show countUnremoved (completeGraph n) (fun _ => false) = n
    unfold countUnremoved
    simp
    rfl
  have h0e : r0.edgesBefore = (completeGraph n).edges.length := by
    have h1 := h0.2.2.2.2
    rw [hget0] at h1
    rw [h1]
    show (completeGraph n).edgesAmong (fun _ => false) = (completeGraph n).edges.length
    unfold Graph.edgesAmong
    simp
  have h0mem : (r0.verticesBefore, r0.edgesBefore) ∈
      ((elimRecord (completeGraph n)).filter
        (fun e => decide (0 < e.verticesBefore))).map
        (fun e => (e.verticesBefore, e.edgesBefore)) := by
    refine List.mem_map.mpr ⟨r0, List.mem_filter.mpr ⟨?_, ?_⟩, rfl⟩
    · rw [hrecs]
      exact List.mem_cons_self r0 rest
    · rw [h0v]
      exact decide_eq_true (by omega)
  have hval : (2 * (r0.edgesBefore : ℚ)) / ((r0.verticesBefore : ℚ)) = (n : ℚ) - 1 := by
    rw [h0v, h0e]
    have hmlQ : 2 * ((completeGraph n).edges.length : ℚ) = (n : ℚ) * ((n : ℚ) - 1) := by
      have h2 : ((2 * (completeGraph n).edges.length : ℕ) : ℚ) =
          ((n * (n - 1) : ℕ) : ℚ) := by exact_mod_cast congrArg Nat.cast hml
      push_cast [hn] at h2
      linarith
    rw [div_eq_iff (by positivity : (n : ℚ) ≠ 0)]
    linarith [hmlQ]
  -- the running maximum is exactly n - 1
  have hmax : maxAvgOver (((elimRecord (completeGraph n)).filter
      (fun e => decide (0 < e.verticesBefore))).map
      (fun e => (e.verticesBefore, e.edgesBefore))) = (n : ℚ) - 1 := by
    unfold maxAvgOver
    apply le_antisymm
    · exact foldl_max_le _ _ _ 0 (by linarith) hbound
    · calc ((n : ℚ) - 1) = (2 * (r0.edgesBefore : ℚ)) / ((r0.verticesBefore : ℚ)) :=
          hval.symm
        _ ≤ _ := le_foldl_max (fun p : Nat × Nat => (2 * (p.2 : ℚ)) / (p.1 : ℚ))
          (((elimRecord (completeGraph n)).filter
            (fun e => decide (0 < e.verticesBefore))).map
            (fun e => (e.verticesBefore, e.edgesBefore))) 0 h0mem
  -- assemble
  simp only [compute_dk]
  rw [if_neg (by
    show ¬ (((completeGraph n).n : ℤ) ≤ 0)
    have : (completeGraph n).n = n := rfl
    omega)]
  rw [Int.toNat_zero, hmax]
  have hceil : Int.ceil ((n : ℚ) - 1) = (n : ℤ) - 1 := by
    have : (n : ℚ) - 1 = (((n : ℤ) - 1 : ℤ) : ℚ) := by push_cast; ring
    rw [this, Int.ceil_intCast]
  rw [hceil]
  omega

/-! ### Claim theorems -/

/-- C1: the claimed two-sided bound `dk(G,k) ≤ αk(G,k) ≤ 2·dk(G,k)` is
broken by the code itself: on the star with three leaves and `k = 1`,
`modified_degeneracy_algorithm` returns `dk = 0` (the last removed
vertex always has degree 0) while `compute_alpha_k_exact` returns
`αk = 2`, so the upper bound `αk ≤ 2·dk` fails even though `n = 4 ≤ 15`
and `0 ≤ k < n`.  This evaluates the code at the failing input. -/
theorem claim_C1_star_violation :
    (modified_degeneracy starG 1).1 = 0 ∧ alpha_k_exact starG 1 = some 2 ∧
    ¬ (2 ≤ 2 * (modified_degeneracy starG 1).1) := by decide

/-- C2: for every well-formed graph and every `k` in `[0, n-1]`, entry
`k` of the array computed by `compute_all_dk_optimized` equals the value
`compute_dk(k)` computed independently on the same graph. -/
theorem claim_C2_all_k_consistency (G : Graph) (hwf : G.Wf) (k : Nat) (hk : k < G.n) :
    compute_all_dk G k = compute_dk G (k : ℤ) :=
  all_dk_eq_single_dk hwf hk

/-- C2 witness: the consistency theorem instantiated on the diamond
graph at `k = 1`. -/
theorem claim_C2_witness : compute_all_dk diamondG 1 = compute_dk diamondG (1 : ℤ) :=
  claim_C2_all_k_consistency diamondG (by decide) 1 (by decide)

/-- C3 counterexample: the claim says the Single-k Evaluator returns 0
whenever `k ≥ n`; on the one-edge graph with `k = n = 2` the code
instead clamps `k` to `n` and returns the maximum degree-at-removal over
the whole record, which is `1 ≠ 0`. -/
theorem claim_C3_counterexample :
    (modified_degeneracy edgeOneG 2).1 = 1 ∧ (modified_degeneracy edgeOneG 2).1 ≠ 0 := by
  decide

/-- C3 (amended): `modified_degeneracy_algorithm` returns `(0, [])` for
`k ≤ 0`; for `k > 0` it returns the maximum degree-at-removal over the
last `min(k, n)` record entries (so for `k ≥ n` the maximum over the
whole record, not 0); and the removal record has exactly `n` entries. -/
theorem claim_C3_single_k_evaluator (G : Graph) (k : ℤ) :
    (k ≤ 0 → modified_degeneracy G k = (0, [])) ∧
    (0 < k → (modified_degeneracy G k).1 =
      (((scanElim G).drop (G.n - min k.toNat G.n)).map Prod.snd).foldl max 0) ∧
    (scanElim G).length = G.n := by
  refine ⟨?_, ?_, scanElim_length G⟩
  · intro hk
    simp only [modified_degeneracy]
    rw [if_neg (by omega : ¬ ((G.n : ℤ) < k)), if_pos hk]
  · intro hk
    by_cases hn0 : G.n = 0
    · simp only [modified_degeneracy]
      rw [if_pos (by omega : (G.n : ℤ) < k), if_pos (by omega : (G.n : ℤ) ≤ 0)]
      have hse : scanElim G = [] := List.length_eq_zero.mp (by rw [scanElim_length]; exact hn0)
      rw [hse]
      simp
    · simp only [modified_degeneracy]
      by_cases hnk : (G.n : ℤ) < k
      · rw [if_pos hnk, if_neg (by omega : ¬ ((G.n : ℤ) ≤ 0))]
        rw [scanElim_length]
        rw [if_pos (by omega : (G.n : ℤ).toNat ≤ G.n)]
        have e1 : (G.n : ℤ).toNat = G.n := Int.toNat_natCast G.n
        have e2 : min k.toNat G.n = G.n := by omega
        rw [e1, e2]
      · rw [if_neg hnk, if_neg (by omega : ¬ (k ≤ 0))]
        rw [scanElim_length]
        rw [if_pos (by omega : k.toNat ≤ G.n)]
        have e2 : min k.toNat G.n = k.toNat := by omega
        rw [e2]

/-- C3 witness: the amended evaluator contract instantiated on the
one-edge graph at `k = -1` and `k = 1`. -/
theorem claim_C3_witness :
    modified_degeneracy edgeOneG (-1) = (0, []) ∧
    (modified_degeneracy edgeOneG 1).1 =
      (((scanElim edgeOneG).drop (edgeOneG.n - min (1 : ℤ).toNat edgeOneG.n)).map
        Prod.snd).foldl max 0 ∧
    (scanElim edgeOneG).length = edgeOneG.n :=
  ⟨(claim_C3_single_k_evaluator edgeOneG (-1)).1 (by decide),
   (claim_C3_single_k_evaluator edgeOneG 1).2.1 (by decide),
   (claim_C3_single_k_evaluator edgeOneG 1).2.2⟩

/-- C4 counterexample: on the diamond (4-cycle plus one diagonal) with
`k = 1` the code yields `dk = 0` (not 2) and `αk = 3` (not 2: the whole
graph has average degree 2.5, whose ceiling is 3), refuting the claimed
values `dk(G,1) = 2`, `αk(G,1) = 2`. -/
theorem claim_C4_counterexample :
    (modified_degeneracy diamondG 1).1 = 0 ∧ alpha_k_exact diamondG 1 = some 3 ∧
    ¬ ((modified_degeneracy diamondG 1).1 = 2 ∧ alpha_k_exact diamondG 1 = some 2) := by
  decide

/-- C4 (amended): on the diamond graph, minimum-degree-first elimination
does remove a degree-2 vertex first and records degree 2; but the
Single-k Evaluator yields `dk(G,1) = 0`, the Exact Oracle yields
`αk(G,1) = 3`, and the Bound Verifier's ratio is the infinity marker
(since `dk = 0`), not 1.0. -/
theorem claim_C4_diamond_scenario :
    (scanElim diamondG).head? = some (1, 2) ∧
    diamondG.inducedDeg (fun _ => false) 1 = 2 ∧
    (modified_degeneracy diamondG 1).1 = 0 ∧
    alpha_k_exact diamondG 1 = some 3 ∧
    (verify_approximation 0 3).ratioOut = none := by decide

/-- C5 counterexample: the claim says the Single-k Evaluator returns
`n - 1` on the complete graph with `k = 0`; `modified_degeneracy` on
`K₂` with `k = 0` instead returns `(0, [])` via its `k ≤ 0` early
return, and `0 ≠ 2 - 1`. -/
theorem claim_C5_counterexample :
    modified_degeneracy (completeGraph 2) 0 = (0, []) ∧
    (modified_degeneracy (completeGraph 2) 0).1 ≠ 2 - 1 := by decide

/-- C5 (amended): the igraph Single-k Evaluator `compute_dk` does return
`n - 1` on the complete graph on `n ≥ 1` vertices with `k = 0` (every
elimination state of `Kₙ` has average degree at most `n - 1`, attained
by the initial state); the networkx `modified_degeneracy_algorithm`
instead returns `(0, [])` for `k = 0`. -/
theorem claim_C5_complete_graph (n : Nat) (hn : 1 ≤ n) :
    compute_dk (completeGraph n) 0 = n - 1 ∧
    modified_degeneracy (completeGraph n) 0 = (0, []) := by
  refine ⟨compute_dk_complete n hn, ?_⟩
  simp only [modified_degeneracy]
  have hGn : (completeGraph n).n = n := rfl
  rw [if_neg (by omega : ¬ (((completeGraph n).n : ℤ) < 0)), if_pos (le_refl (0 : ℤ))]

/-- C5 witness: the amended closed form instantiated at `n = 3`. -/
theorem claim_C5_witness :
    compute_dk (completeGraph 3) 0 = 3 - 1 ∧
    modified_degeneracy (completeGraph 3) 0 = (0, []) :=
  claim_C5_complete_graph 3 (by decide)

/-- C6 counterexample: the claim says the ratio is 1 when both inputs
are 0; the code returns the infinity marker whenever `dk_value = 0`,
including for `alpha_k = 0`. -/
theorem claim_C6_counterexample :
    (verify_approximation 0 0).ratioOut = none ∧
    (verify_approximation 0 0).ratioOut ≠ some 1 := by decide

/-- C6 (amended): the Bound Verifier returns the booleans
`dk ≤ αk` and `αk ≤ 2·dk`, and a ratio equal to `αk/dk` when `dk > 0`
and to the infinity marker whenever `dk = 0` (including `αk = 0`). -/
theorem claim_C6_verifier (dkValue alphaKValue : Nat) :
    ((verify_approximation dkValue alphaKValue).lowerOk = true ↔ dkValue ≤ alphaKValue) ∧
    ((verify_approximation dkValue alphaKValue).upperOk = true ↔ alphaKValue ≤ 2 * dkValue) ∧
    (0 < dkValue → (verify_approximation dkValue alphaKValue).ratioOut =
      some ((alphaKValue : ℚ) / (dkValue : ℚ))) ∧
    (dkValue = 0 → (verify_approximation dkValue alphaKValue).ratioOut = none) := by
  refine ⟨by simp [verify_approximation], by simp [verify_approximation],
    fun h => ?_, fun h => ?_⟩
  · simp [verify_approximation, h]
  · simp [verify_approximation, h]

/-- C6 witness: the verifier contract instantiated at `dk = 2`,
`αk = 3`. -/
theorem claim_C6_witness :
    ((verify_approximation 2 3).lowerOk = true ↔ 2 ≤ 3) ∧
    (verify_approximation 2 3).ratioOut = some ((3 : ℚ) / (2 : ℚ)) :=
  ⟨(claim_C6_verifier 2 3).1, (claim_C6_verifier 2 3).2.2.1 (by decide)⟩

/-- C7 counterexample: the claim says the Exact Oracle never returns a
numeric value when `n > 15`; with `n = 16` and `k = 16` the `n ≤ k`
guard fires first and the numeric `(0, None)` is returned. -/
theorem claim_C7_counterexample :
    alpha_k_exact bigG16 16 = some 0 ∧ alpha_k_exact bigG16 16 ≠ none := by decide

/-- C7 (amended): for every graph with `n > 15` and every `k < n`, the
Exact Oracle signals the explicit infeasible outcome (the `(None, None)`
result) and returns no numeric value.  (For `k ≥ n` the `n ≤ k` guard
precedes the size check and the numeric `(0, None)` escapes — see
C10.) -/
theorem claim_C7_infeasible_signal (G : Graph) (k : ℤ) (hn : 15 < G.n)
    (hk : k < (G.n : ℤ)) :
    alpha_k_exact G k = none := by
  unfold alpha_k_exact
  rw [if_neg (by omega), if_pos hn]

/-- C7 witness: the infeasible signal on the 16-vertex edgeless graph at
`k = 0`. -/
theorem claim_C7_witness : alpha_k_exact bigG16 0 = none :=
  claim_C7_infeasible_signal bigG16 0 (by decide) (by decide)

/-- C8: in the heap elimination, the degree recorded for the vertex
removed at step `i` equals the number of its neighbours in the original
graph that have not yet been removed at that step, reconstructed
independently from the adjacency structure. -/
theorem claim_C8_degree_reconstruction (G : Graph) (hwf : G.Wf) (i : Nat)
    (hi : i < (elimRecord G).length) :
    ((elimRecord G).getD i dfltEntry).degAtRemoval =
      G.inducedDeg (removedAfter ((elimRecord G).take i))
        ((elimRecord G).getD i dfltEntry).vtx :=
  (validTrace_getD (elimRecord_valid hwf) i hi).2.2.1

/-- C8 witness: the degree reconstruction instantiated on the diamond
graph at step 0. -/
theorem claim_C8_witness :
    ((elimRecord diamondG).getD 0 dfltEntry).degAtRemoval =
      diamondG.inducedDeg (removedAfter ((elimRecord diamondG).take 0))
        ((elimRecord diamondG).getD 0 dfltEntry).vtx :=
  claim_C8_degree_reconstruction diamondG (by decide) 0 (by decide)

/-- C9: before every removal of the heap elimination `edges_remaining`
equals the number of original edges with both endpoints still remaining,
and subtracting the popped degree yields exactly the edge count after
the removal — the popped entry is always fresh. -/
theorem claim_C9_edges_remaining (G : Graph) (hwf : G.Wf) (i : Nat)
    (hi : i < (elimRecord G).length) :
    ((elimRecord G).getD i dfltEntry).edgesBefore =
      G.edgesAmong (removedAfter ((elimRecord G).take i)) ∧
    ((elimRecord G).getD i dfltEntry).edgesBefore -
        ((elimRecord G).getD i dfltEntry).degAtRemoval =
      G.edgesAmong (addRemoved (removedAfter ((elimRecord G).take i))
        ((elimRecord G).getD i dfltEntry).vtx) := by
  obtain ⟨h1, _, h3, _, h5⟩ := validTrace_getD (elimRecord_valid hwf) i hi
  have hra : removedAfterFrom (fun _ => false) ((elimRecord G).take i) =
      removedAfter ((elimRecord G).take i) := rfl
  rw [hra] at h1 h3 h5
  refine ⟨h5, ?_⟩
  have h6 := edgesAmong_addRemoved hwf h1
  omega

/-- C9 witness: the edge bookkeeping instantiated on the star graph at
step 0. -/
theorem claim_C9_witness :
    ((elimRecord starG).getD 0 dfltEntry).edgesBefore =
      starG.edgesAmong (removedAfter ((elimRecord starG).take 0)) ∧
    ((elimRecord starG).getD 0 dfltEntry).edgesBefore -
        ((elimRecord starG).getD 0 dfltEntry).degAtRemoval =
      starG.edgesAmong (addRemoved (removedAfter ((elimRecord starG).take 0))
        ((elimRecord starG).getD 0 dfltEntry).vtx) :=
  claim_C9_edges_remaining starG (by decide) 0 (by decide)

/-- C10: whenever `k ≥ n` the Exact Oracle returns the numeric result
`(0, None)` rather than the infeasible signal, for every graph —
including graphs above the `n ≤ 15` feasibility ceiling — because the
`n ≤ k` check is evaluated before the `n > 15` check. -/
theorem claim_C10_k_ge_n_numeric (G : Graph) (k : ℤ) (h : (G.n : ℤ) ≤ k) :
    alpha_k_exact G k = some 0 := by
  unfold alpha_k_exact
  rw [if_pos h]

/-- C10 witness: the numeric `(0, None)` result on a 17-vertex graph at
`k = 20`. -/
theorem claim_C10_witness : alpha_k_exact bigG17 20 = some 0 :=
  claim_C10_k_ge_n_numeric bigG17 20 (by decide)

end LSA
